import Mathlib

/-!
Shallow embedding of the `conject` dependency-injection runtime
(`src/conject/_container.py`, `_container_config.py`, `_dep_spec.py`,
`_types.py`, `_impl.py`, `_utils.py`, `_validation.py`, `utils.py`).

Python values (`Any`) are modelled by the inductive `Val`; the
`SkipTypeCheck` wrapper from `conject/utils.py` is the `Val.skip`
constructor.  Python dicts are modelled by insertion-ordered association
lists with `lookup` / `setKey` / `delKey` mirroring `d.get`, `d[k] = v`
and `del d[k]`.  The cooperative/blocking duality (`async` in the source)
is irrelevant to the claims: every awaited call completes immediately in
the synchronous container (`run_coro_synchronously`), so the engine is
embedded as a plain state-passing function.  Recursion in
`_async_get_raw` / `_get_param_val` is embedded with a fuel parameter;
exhausted fuel yields the artificial error `IErr.outOfFuel`, which no
real execution of the source produces.
-/

namespace Conject

/-- Python runtime values (`Any`).  `skip` is `conject.utils.SkipTypeCheck`,
`container` is the container object pre-seeded under the reserved name. -/
inductive Val where
  | none
  | bool (b : Bool)
  | int (n : Int)
  | str (s : String)
  | list (xs : List Val)
  | dict (xs : List (String × Val))
  | container
  | skip (v : Val)

/-- `conject._validation.ValidationError`: carries the offending value and
the expected type (the type rendered as a string). -/
structure VErr where
  value : Val
  expectedType : String

/-- A configured parameter value as produced by
`conject._container_config._load_param_value`: either a plain (non
`DeferredValue`) Python value, or one of the `DeferredValue` variants
`RefValue`, `ListValue`, `DictValue`, `ExpressionValue`.  An expression's
dependency set is computed ahead of time by a syntactic scan
(`_expressions.expr_dependencies`, an external collaborator), so the
variant carries the resulting name list and the opaque evaluation
function, which is all the engine ever uses. -/
inductive CVal where
  | plain (v : Val)
  | ref (name : String)
  | listv (items : List CVal)
  | dictv (entries : List (String × CVal))
  | expr (deps : List String) (f : (String → Val) → Val)

mutual

/-- `DeferredValue.deps` (`_container_config.py`): `RefValue` depends on its
name, `ListValue`/`DictValue` on the union of their deferred children's
dependencies, `ExpressionValue` on the pre-scanned identifier set.  The
Python `set` is modelled as an ordered list; callers dedup with
`eraseDups`. -/
def CVal.depList : CVal → List String
  | .plain _ => []
  | .ref n => [n]
  | .listv xs => CVal.depListL xs
  | .dictv xs => CVal.depListD xs
  | .expr ds _ => ds

def CVal.depListL : List CVal → List String
  | [] => []
  | x :: xs => CVal.depList x ++ CVal.depListL xs

def CVal.depListD : List (String × CVal) → List String
  | [] => []
  | (_, x) :: xs => CVal.depList x ++ CVal.depListD xs

end

mutual

/-- `DeferredValue.eval` (`_container_config.py`): the resolved-dependency
dict is modelled as a function from names to values.  Plain children are
returned as-is, deferred children are evaluated recursively
(`ListValue.eval` / `DictValue.eval`); `RefValue.eval` indexes the dict;
`ExpressionValue.eval` runs the opaque expression function. -/
def CVal.eval : CVal → (String → Val) → Val
  | .plain v, _ => v
  | .ref n, deps => deps n
  | .listv xs, deps => .list (CVal.evalL xs deps)
  | .dictv xs, deps => .dict (CVal.evalD xs deps)
  | .expr _ f, deps => f deps

def CVal.evalL : List CVal → (String → Val) → List Val
  | [], _ => []
  | x :: xs, deps => CVal.eval x deps :: CVal.evalL xs deps

def CVal.evalD : List (String × CVal) → (String → Val) → List (String × Val)
  | [], _ => []
  | (k, x) :: xs, deps => (k, CVal.eval x deps) :: CVal.evalD xs deps

end

/-- `conject._types.Parameter`: name, default-or-missing
(`missing` modelled as `Option.none`), and the validation function
derived from the declared type by `make_validator`
(`value → value`, raising `ValidationError` on failure).  The default is
stored as a `CVal` because `_get_param_val` substitutes it for the
configured value and then branches on `isinstance(..., DeferredValue)`. -/
structure Parameter where
  name : String
  default : Option CVal
  validator : Val → Except VErr Val

/-- `conject._types.PreparedSyncImpl`: name, parameters, and the
normalized scoped-acquisition operation.  `ctx_mgr(**params).__enter__`
is `acquire` (it may raise, modelled by `Except`); the matching
`__exit__` registered on the exit stack is identified by the instance
name, and `releaseOk` records whether that release completes without
raising. -/
structure PreparedImpl where
  name : String
  params : List Parameter
  acquire : List (String × Val) → Except String Val
  releaseOk : Bool

/-- `conject._container_config.InstanceConfig`. -/
structure InstanceConfig where
  implName : String
  parameters : List (String × CVal)

/-- `conject._container_config.ContainerConfig`. -/
structure ContainerConfig where
  instances : List (String × InstanceConfig)

/-- The read-only data a container is built over: the prepared
implementations borrowed from the registry and the parsed configuration
(`BaseContainer.__init__` arguments `impls`, `config`). -/
structure Env where
  impls : List (String × PreparedImpl)
  config : ContainerConfig

/-- One slot of `BaseContainer._instances`: the `_initializing` sentinel
or a finished value.  Absence from the dict is `Option.none` at the
`lookup` level. -/
inductive CacheEntry where
  | initializing
  | val (v : Val)

/-- One registered release (`__exit__`) on the exit stack: the instance
name whose acquisition registered it and whether running it completes
without raising. -/
structure ReleaseEntry where
  name : String
  ok : Bool
deriving DecidableEq

/-- The mutable state of one container: the instance cache
(`self._instances`), the exit stack (`self._exit_stack`, most recently
registered release first), and a ghost log of acquisitions in the order
their `begin` operations ran (used to state the teardown-ordering and
memoization claims; the source has no such field). -/
structure St where
  instances : List (String × CacheEntry)
  releases : List ReleaseEntry
  acqLog : List ReleaseEntry

/-- The `InstanceError` taxonomy of `_container.py` (`MissingValue`,
`DependencyCycle`, `InvalidImplParam`, `InvalidInstanceType`) plus the
acquisition-failure passthrough (an arbitrary exception raised by the
factory) and the artificial fuel-exhaustion marker of the embedding. -/
inductive IErr where
  | dependencyCycle (stack : List String)
  | missingValue (stack : List String)
  | invalidImplParam (inst : String) (param : String) (expectedType : String) (value : Val)
  | invalidInstanceType (inst : String) (expectedType : String) (value : Val)
  | acquireFailed (msg : String)
  | outOfFuel

/-- What `_get_param_val` can raise: a bare `ValidationError` (caught and
rewrapped by the caller's parameter loop) or an `InstanceError` from the
recursive resolution. -/
inductive PErr where
  | validation (e : VErr)
  | inst (e : IErr)

/-! ### Insertion-ordered dict operations -/

/-- `d.get(k)` on a Python dict modelled as an association list. -/
def lookup {α : Type} : List (String × α) → String → Option α
  | [], _ => Option.none
  | (k', v) :: rest, k => if k' = k then some v else lookup rest k

/-- `d[k] = v`: update in place if present (Python dicts keep the original
key position), else append at the end (insertion order). -/
def setKey {α : Type} : List (String × α) → String → α → List (String × α)
  | [], k, v => [(k, v)]
  | (k', v') :: rest, k, v =>
      if k' = k then (k, v) :: rest else (k', v') :: setKey rest k v

/-- `del d[k]`: remove the binding for `k` (keys are unique in a Python
dict, so removing every occurrence is the same operation). -/
def delKey {α : Type} : List (String × α) → String → List (String × α)
  | [], _ => []
  | (k', v) :: rest, k =>
      if k' = k then delKey rest k else (k', v) :: delKey rest k

/-- Number of acquisitions of instance `n` recorded in the ghost log. -/
def countAcq (s : St) (n : String) : Nat :=
  (s.acqLog.filter (fun r => r.name == n)).length

/-- The `SkipTypeCheck` unwrap step of `_async_get`
(`if isinstance(instance, SkipTypeCheck): instance = instance.value`). -/
def unwrapSkip : Val → Val
  | .skip v => v
  | v => v

/-- The tail of `_get_param_val`: unwrap a `SkipTypeCheck` value, else
apply the parameter's validator — but only when not in dry-run mode. -/
def finishParamVal (p : Parameter) (dry : Bool) (pv : Val) : Except PErr Val :=
  match pv with
  | .skip w => .ok w
  | v =>
      if dry then .ok v
      else
        match p.validator v with
        | .ok w => .ok w
        | .error e => .error (.validation e)

/-! ### The resolution engine

`_async_get_raw` and `_get_param_val` are mutually recursive; the fuel
level is consumed exactly at this mutual boundary.  `engine env fuel`
bundles both functions at a given fuel; `engine env (fuel+1)` is one
unfolding of the source bodies over `engine env fuel`. -/

/-- The pair of mutually recursive engine operations at one fuel level. -/
structure EngineFns where
  raw : String → List String → Bool → St → Except IErr Val × St
  pval : List String → Parameter → Option CVal → Bool → St → Except PErr Val × St

/-- `_async_get(dep_name, build_stack, dry_run=dry_run)` as used in the
deferred-dependency comprehension of `_get_param_val`: `check_type` is
`None` there, so it is `_async_get_raw` followed by the `SkipTypeCheck`
unwrap. -/
def asyncGetPlain (prev : EngineFns) (name : String) (stack : List String)
    (dry : Bool) (s : St) : Except IErr Val × St :=
  match prev.raw name stack dry s with
  | (.error e, s') => (.error e, s')
  | (.ok v, s') => (.ok (unwrapSkip v), s')

/-- The dict comprehension `{dep: await self._async_get(dep, stack, dry)
for dep in configured_value.deps}` of `_get_param_val`, resolving each
dependency in order and stopping at the first error. -/
def depsLoop (get : String → St → Except IErr Val × St) :
    List String → St → Except IErr (List (String × Val)) × St
  | [], s => (.ok [], s)
  | d :: ds, s =>
      match get d s with
      | (.error e, s') => (.error e, s')
      | (.ok v, s') =>
          match depsLoop get ds s' with
          | (.error e, s'') => (.error e, s'')
          | (.ok vs, s'') => (.ok ((d, v) :: vs), s'')

/-- The parameter loop of `_async_get_raw`: for each declared parameter,
fetch the configured value (`inst_config.parameters.get(param.name,
_missing)`), call `_get_param_val`, and rewrap a raised
`ValidationError` as `InvalidImplParam(inst_name, param.name,
e.expected_type, e.value)`. -/
def paramsLoop
    (pv : List String → Parameter → Option CVal → Bool → St → Except PErr Val × St)
    (inst : String) (cfg : InstanceConfig) (stack : List String) (dry : Bool) :
    List Parameter → St → Except IErr (List (String × Val)) × St
  | [], s => (.ok [], s)
  | p :: rest, s =>
      match pv stack p (lookup cfg.parameters p.name) dry s with
      | (.error (.validation e), s') =>
          (.error (.invalidImplParam inst p.name e.expectedType e.value), s')
      | (.error (.inst e), s') => (.error e, s')
      | (.ok v, s') =>
          match paramsLoop pv inst cfg stack dry rest s' with
          | (.error e, s'') => (.error e, s'')
          | (.ok vs, s'') => (.ok ((p.name, v) :: vs), s'')

/-- `BaseContainer._async_get_raw`, one fuel level.  Steps: append the
name to the stack; fail with `DependencyCycle` if the cache marks the
name initializing; return a cached finished value; otherwise mark the
name initializing, look up the instance configuration (defaulting to
implementation-of-the-same-name with no parameters) and the prepared
implementation (`MissingValue` if absent), resolve every declared
parameter, then — unless dry-run — run the implementation's scoped
acquisition, register its release on the exit stack and cache the value;
in dry-run simply drop the initializing marker.  Every error path
removes the initializing marker before propagating (the
`except BaseException` clause). -/
def rawF (env : Env) (prev : EngineFns) (name : String) (stack : List String)
    (dry : Bool) (s : St) : Except IErr Val × St :=
  let stk := stack ++ [name]
  match lookup s.instances name with
  | some .initializing => (.error (.dependencyCycle stk), s)
  | some (.val v) => (.ok v, s)
  | Option.none =>
      let s1 : St := { s with instances := setKey s.instances name .initializing }
      let instCfg := (lookup env.config.instances name).getD ⟨name, []⟩
      match lookup env.impls instCfg.implName with
      | Option.none =>
          (.error (.missingValue stk), { s1 with instances := delKey s1.instances name })
      | some impl =>
          match paramsLoop prev.pval name instCfg stk dry impl.params s1 with
          | (.error e, s2) => (.error e, { s2 with instances := delKey s2.instances name })
          | (.ok paramVals, s2) =>
              if dry then
                (.ok Val.none, { s2 with instances := delKey s2.instances name })
              else
                match impl.acquire paramVals with
                | .error msg =>
                    (.error (.acquireFailed msg),
                     { s2 with instances := delKey s2.instances name })
                | .ok v =>
                    (.ok v,
                     { s2 with
                        instances := setKey s2.instances name (.val v),
                        releases := ⟨name, impl.releaseOk⟩ :: s2.releases,
                        acqLog := s2.acqLog ++ [⟨name, impl.releaseOk⟩] })

/-- The `isinstance(configured_value, DeferredValue)` test of
`_get_param_val`: a `plain` value is not a `DeferredValue`; every other
variant is.  Returns the plain payload when the test is negative. -/
def CVal.plainVal? : CVal → Option Val
  | .plain v => some v
  | _ => Option.none

/-- `BaseContainer._get_param_val`, one fuel level.  Precedence: the
configured value if present, else the parameter's default if it has one;
if still missing, recursively fetch the instance named like the
parameter.  A present `DeferredValue` first has every name in its
dependency set resolved (through `_async_get`, same stack and dry-run
flag) and is then evaluated — evaluation is skipped in dry-run mode,
leaving `None`.  Finally the `SkipTypeCheck`/validator step runs
(`finishParamVal`). -/
def pvalF (prev : EngineFns) (stack : List String) (p : Parameter)
    (configured : Option CVal) (dry : Bool) (s : St) : Except PErr Val × St :=
  let configured := match configured with
    | Option.none => p.default
    | some cv => some cv
  match configured with
  | Option.none =>
      match prev.raw p.name stack dry s with
      | (.error e, s') => (.error (.inst e), s')
      | (.ok pv, s') => (finishParamVal p dry pv, s')
  | some cv =>
      match cv.plainVal? with
      | some v => (finishParamVal p dry v, s)
      | Option.none =>
          match depsLoop (fun d t => asyncGetPlain prev d stack dry t)
              (CVal.depList cv).eraseDups s with
          | (.error e, s') => (.error (.inst e), s')
          | (.ok resolved, s') =>
              let pv := if dry then Val.none
                        else cv.eval (fun d => (lookup resolved d).getD Val.none)
              (finishParamVal p dry pv, s')

/-- One unfolding of the mutually recursive pair over the previous fuel
level. -/
def engineStep (env : Env) (prev : EngineFns) : EngineFns where
  raw := rawF env prev
  pval := pvalF prev

/-- The engine at a given fuel.  Fuel `0` is the artificial bottom. -/
def engine (env : Env) : Nat → EngineFns
  | 0 =>
      ⟨fun _ _ _ s => (.error .outOfFuel, s),
       fun _ _ _ _ s => (.error (.inst .outOfFuel), s)⟩
  | fuel + 1 => engineStep env (engine env fuel)

/-- `_async_get_raw` at a given fuel. -/
def getRaw (fuel : Nat) (env : Env) (name : String) (stack : List String)
    (dry : Bool) (s : St) : Except IErr Val × St :=
  (engine env fuel).raw name stack dry s

/-- `_get_param_val` at a given fuel. -/
def getParamVal (fuel : Nat) (env : Env) (stack : List String) (p : Parameter)
    (configured : Option CVal) (dry : Bool) (s : St) : Except PErr Val × St :=
  (engine env fuel).pval stack p configured dry s

/-- `BaseContainer._async_get`: `_async_get_raw`, then the `SkipTypeCheck`
unwrap, then — when a `check_type` is supplied and the value was not
skip-wrapped — the instance-type validator, whose failure becomes
`InvalidInstanceType(inst_name, e.expected_type, e.value)`. -/
def asyncGet (fuel : Nat) (env : Env) (name : String) (stack : List String)
    (dry : Bool) (checkType : Option (Val → Except VErr Val)) (s : St) :
    Except IErr Val × St :=
  match getRaw fuel env name stack dry s with
  | (.error e, s') => (.error e, s')
  | (.ok v, s') =>
      match v with
      | .skip w => (.ok w, s')
      | v =>
          match checkType with
          | Option.none => (.ok v, s')
          | some validator =>
              match validator v with
              | .ok w => (.ok w, s')
              | .error e => (.error (.invalidInstanceType name e.expectedType e.value), s')

/-- `Container.get(name, check_type)`: `_async_get(name, [], check_type=...)`
run synchronously. -/
def containerGet (fuel : Nat) (env : Env) (name : String)
    (checkType : Option (Val → Except VErr Val)) (s : St) : Except IErr Val × St :=
  asyncGet fuel env name [] false checkType s

/-- `BaseContainer.ensure_constructible(name)`:
`_async_get(name, [], dry_run=True)` run synchronously (`check_type`
defaults to `None`). -/
def ensureConstructible (fuel : Nat) (env : Env) (name : String) (s : St) :
    Except IErr Val × St :=
  asyncGet fuel env name [] true Option.none s

/-- `BaseContainer._get_factory_param_vals` /  `Container.get_params`:
the factory's introspected parameters (`get_factory_params` on a
transient `Impl`, modelled as the resulting parameter list) are each
resolved through `_get_param_val([], param)` — no configured value, not
dry-run — and collected into a name-keyed map.  The factory is never
added to `self._impls`. -/
def getFactoryParamVals (fuel : Nat) (env : Env) :
    List Parameter → St → Except PErr (List (String × Val)) × St
  | [], s => (.ok [], s)
  | p :: rest, s =>
      match getParamVal fuel env [] p Option.none false s with
      | (.error e, s') => (.error e, s')
      | (.ok v, s') =>
          match getFactoryParamVals fuel env rest s' with
          | (.error e, s'') => (.error e, s'')
          | (.ok vs, s'') => (.ok ((p.name, v) :: vs), s'')

/-- `BaseContainer.__init__`: the instance cache starts holding the
container itself under the reserved name `'container'`; the exit stack
is empty. -/
def freshSt : St :=
  { instances := [("container", .val .container)], releases := [], acqLog := [] }

/-- `BaseContainer.inject(instances)`: first check every supplied name
against the cache and raise `ValueError('instance already exists', name)`
at the first clash — before any update — then merge all values in.  The
error payload is modelled as the offending name. -/
def inject (s : St) (new : List (String × Val)) : Except String Unit × St :=
  match new.find? (fun p => (lookup s.instances p.1).isSome) with
  | some p => (.error p.1, s)
  | Option.none =>
      (.ok (),
       { s with instances :=
          new.foldl (fun m q => setKey m q.1 (.val q.2)) s.instances })

/-! ### The registry (`_dep_spec.py`) -/

/-- `conject._impl.FactoryType`: the eight factory shapes. -/
inductive FactoryType where
  | value | cls | func | genFunc | ctxMgr | afunc | agenFunc | actxMgr
deriving DecidableEq

/-- `conject._impl.Impl`, a factory descriptor.  The Python factory object
itself is opaque runtime data; the properties the repository's code
observes about it through reflection are modelled as fields:
`isCoroutineFn` (`inspect.iscoroutinefunction`), `callableOk`
(`callable(impl.factory)`), `paramKindsOk` (every signature parameter is
positional-or-keyword or keyword-only), `rawParams` (the parameters
produced by `get_factory_params`, with the descriptor's bound defaults
already merged over the callable's own declared defaults, per-parameter
validators derived from the type hints), and the normalized scoped
acquisition (`acquire`/`releaseOk`). -/
structure Impl where
  ftype : FactoryType
  name : String
  isCoroutineFn : Bool
  callableOk : Bool
  paramKindsOk : Bool
  rawParams : List Parameter
  acquire : List (String × Val) → Except String Val
  releaseOk : Bool

/-- `conject._utils.probe_impl_factory`: reject an `async def` factory
registered under the synchronous `Func` shape. -/
def probeImplFactory (impl : Impl) : Except String Unit :=
  if impl.isCoroutineFn && impl.ftype == .func then
    .error ("Factory " ++ impl.name ++ " is an async function, but factory type set to Func")
  else .ok ()

/-- `conject._utils.get_factory_params`: a `Value` descriptor has no
parameters; otherwise the factory must be callable and every declared
parameter must have a supported passing convention, after which the
introspected parameter list is returned. -/
def getFactoryParams (impl : Impl) : Except String (List Parameter) :=
  if impl.ftype == .value then .ok []
  else if !impl.callableOk then .error ("Factory should be callable: " ++ impl.name)
  else if !impl.paramKindsOk then .error ("Unsupported parameter kind " ++ impl.name)
  else .ok impl.rawParams

/-- `conject._utils.make_sync_ctx_mgr` accepts only the synchronous
shapes; an async shape raises `Unsupported factory type`. -/
def syncShapeOk : FactoryType → Bool
  | .value | .cls | .func | .genFunc | .ctxMgr => true
  | _ => false

/-- `conject._utils.prepare_sync_impl`: introspect the parameters, then
normalize the shape into the scoped-acquisition operation. -/
def prepareSyncImpl (impl : Impl) : Except String PreparedImpl :=
  match getFactoryParams impl with
  | .error e => .error e
  | .ok ps =>
      if syncShapeOk impl.ftype then
        .ok { name := impl.name, params := ps,
              acquire := impl.acquire, releaseOk := impl.releaseOk }
      else .error "Unsupported factory type"

/-- The mutable state of `_BaseDepSpec`: `self._impls` and
`self._prepared_impls`. -/
structure DepSpecSt where
  impls : List (String × Impl)
  preparedImpls : List (String × PreparedImpl)

/-- The loop of `_BaseDepSpec.add_many`: build a batch-local
`prepared_impls` dict; a name already in the batch dict or in
`self._impls` raises `Multiple implementations named ...`, probe and
preparation failures abort too, and every failure is rewrapped as
`ValueError('Error adding <name>')`. -/
def addLoop (specImpls : List (String × Impl)) :
    List Impl → List (String × PreparedImpl) →
    Except String (List (String × PreparedImpl))
  | [], acc => .ok acc
  | impl :: rest, acc =>
      if (lookup acc impl.name).isSome || (lookup specImpls impl.name).isSome then
        .error ("Error adding " ++ impl.name)
      else
        match probeImplFactory impl with
        | .error _ => .error ("Error adding " ++ impl.name)
        | .ok _ =>
            match prepareSyncImpl impl with
            | .error _ => .error ("Error adding " ++ impl.name)
            | .ok pimpl => addLoop specImpls rest (acc ++ [(impl.name, pimpl)])

/-- `_BaseDepSpec.add_many` (synchronous registry): run the batch loop;
only after the whole batch succeeded are `self._prepared_impls` and
`self._impls` updated, so a failing batch leaves the registry untouched. -/
def addMany (spec : DepSpecSt) (batch : List Impl) : Except String Unit × DepSpecSt :=
  match addLoop spec.impls batch [] with
  | .error m => (.error m, spec)
  | .ok prepared =>
      (.ok (),
       { impls := batch.foldl (fun m i => setKey m i.name i) spec.impls,
         preparedImpls := prepared.foldl (fun m p => setKey m p.1 p.2) spec.preparedImpls })

/-- Modelled from the spec: the scope-exit unwind of the container
(`with ExitStack() as exit_stack` in `DepSpec._start_container`;
`contextlib.ExitStack` itself is standard-library code outside this
repository).  Per the spec's teardown contract, the registered release
operations are attempted from most recently registered to earliest; a
release that raises is recorded but does not prevent the remaining,
earlier-registered releases from being attempted, and failures are not
suppressed (they are re-raised after the unwind).  Returns the releases
in the order attempted and the collected failures. -/
def closeStack : List ReleaseEntry → List ReleaseEntry × List String
  | [] => ([], [])
  | r :: rest =>
      let (ran, errs) := closeStack rest
      (r :: ran, (if r.ok then [] else ["release failed: " ++ r.name]) ++ errs)

/-! ### Concrete instances used by the witnesses and counterexamples -/

/-- `_validation._empty_validator`: the validator of an untyped parameter. -/
def anyValidator : Val → Except VErr Val := fun v => .ok v

/-- The validator derived from an `int` annotation: accepts integers,
rejects anything else with a `ValidationError` naming the type. -/
def intValidator : Val → Except VErr Val := fun v =>
  match v with
  | .int k => .ok (.int k)
  | v => .error ⟨v, "int"⟩

/-- An untyped, defaultless parameter of the given name. -/
def pArg (n : String) : Parameter := { name := n, default := Option.none, validator := anyValidator }

/-- An environment with no implementations and empty configuration. -/
def envE : Env := { impls := [], config := ⟨[]⟩ }

/-- A single parameterless implementation `a` yielding `7`. -/
def implW1 : PreparedImpl :=
  { name := "a", params := [], acquire := fun _ => .ok (.int 7), releaseOk := true }

def envW1 : Env := { impls := [("a", implW1)], config := ⟨[]⟩ }

/-- The container state after `get('a')` on `envW1`. -/
def stW1 : St :=
  { instances := [("container", .val .container), ("a", .val (.int 7))],
    releases := [⟨"a", true⟩], acqLog := [⟨"a", true⟩] }

/-- Implementation `a` whose sole parameter is named `a`: direct
self-dependency through implicit wiring. -/
def implW2 : PreparedImpl :=
  { name := "a", params := [pArg "a"], acquire := fun _ => .ok Val.none, releaseOk := true }

def envW2 : Env := { impls := [("a", implW2)], config := ⟨[]⟩ }

/-- Implementations for the cycle counterexample: `n` declares parameters
`b` and `n` (so instance `n` transitively depends on itself through its
second parameter), while `b` and `c` form a two-cycle reached first
through `n`'s first parameter. -/
def implN : PreparedImpl :=
  { name := "n", params := [pArg "b", pArg "n"], acquire := fun _ => .ok Val.none,
    releaseOk := true }

def implB : PreparedImpl :=
  { name := "b", params := [pArg "c"], acquire := fun _ => .ok Val.none, releaseOk := true }

def implC : PreparedImpl :=
  { name := "c", params := [pArg "b"], acquire := fun _ => .ok Val.none, releaseOk := true }

def envC2 : Env :=
  { impls := [("n", implN), ("b", implB), ("c", implC)], config := ⟨[]⟩ }

/-- Parameter `x` annotated `int`. -/
def xParam : Parameter := { name := "x", default := Option.none, validator := intValidator }

/-- Implementation `a(x: int)` returning its argument. -/
def implV : PreparedImpl :=
  { name := "a", params := [xParam],
    acquire := fun ps => .ok ((lookup ps "x").getD Val.none), releaseOk := true }

/-- Environment configuring instance `a` with the non-integer parameter
value `"bad"`. -/
def envV : Env :=
  { impls := [("a", implV)],
    config := ⟨[("a", ⟨"a", [("x", .plain (.str "bad"))]⟩)]⟩ }

/-- A factory parameter `p` with declared default `5` (untyped). -/
def p8 : Parameter := { name := "p", default := some (.plain (.int 5)), validator := anyValidator }

/-- A container state whose cache already holds instance `p = 7`. -/
def st8 : St :=
  { instances := [("container", .val .container), ("p", .val (.int 7))],
    releases := [], acqLog := [] }

/-- A well-formed `Func`-shaped factory descriptor named `a`. -/
def iW9 : Impl :=
  { ftype := .func, name := "a", isCoroutineFn := false, callableOk := true,
    paramKindsOk := true, rawParams := [], acquire := fun _ => .ok (.int 1),
    releaseOk := true }

/-- An empty registry. -/
def specE : DepSpecSt := { impls := [], preparedImpls := [] }

/-! ### Association-list lemmas -/

theorem lookup_setKey_self {α : Type} (l : List (String × α)) (k : String) (v : α) :
    lookup (setKey l k v) k = some v := by
  induction l with
  | nil => simp [setKey, lookup]
  | cons hd tl ih =>
      obtain ⟨k', v'⟩ := hd
      by_cases h : k' = k
      · simp [setKey, h, lookup]
      · simp [setKey, h, lookup, ih]

theorem lookup_setKey_ne {α : Type} (l : List (String × α)) (k k' : String) (v : α)
    (h : k' ≠ k) : lookup (setKey l k v) k' = lookup l k' := by
  have h' : ¬ k = k' := fun hh => h hh.symm
  induction l with
  | nil => simp [setKey, lookup, h']
  | cons hd tl ih =>
      obtain ⟨k0, v0⟩ := hd
      by_cases h0 : k0 = k
      · subst h0
        simp [setKey, lookup, h']
      · simp only [setKey, if_neg h0, lookup]
        by_cases h1 : k0 = k'
        · simp [h1]
        · simp [h1, ih]

theorem lookup_delKey_self {α : Type} (l : List (String × α)) (k : String) :
    lookup (delKey l k) k = Option.none := by
  induction l with
  | nil => simp [delKey, lookup]
  | cons hd tl ih =>
      obtain ⟨k', v'⟩ := hd
      by_cases h : k' = k
      · simp [delKey, h, ih]
      · simp [delKey, h, lookup, ih]

theorem lookup_delKey_ne {α : Type} (l : List (String × α)) (k k' : String)
    (h : k' ≠ k) : lookup (delKey l k) k' = lookup l k' := by
  have h' : ¬ k = k' := fun hh => h hh.symm
  induction l with
  | nil => simp [delKey]
  | cons hd tl ih =>
      obtain ⟨k0, v0⟩ := hd
      by_cases h0 : k0 = k
      · subst h0
        simp [delKey, lookup, h', ih]
      · simp only [delKey, if_neg h0, lookup]
        by_cases h1 : k0 = k'
        · simp [h1]
        · simp [h1, ih]

theorem delKey_setKey_absent {α : Type} (l : List (String × α)) (k : String) (v : α)
    (h : lookup l k = Option.none) : delKey (setKey l k v) k = l := by
  induction l with
  | nil => simp [setKey, delKey]
  | cons hd tl ih =>
      obtain ⟨k', v'⟩ := hd
      by_cases h0 : k' = k
      · rw [lookup, if_pos h0] at h
        cases h
      · rw [lookup, if_neg h0] at h
        simp [setKey, h0, delKey, ih h]

/-! ### Generic preservation through the loops -/

theorem depsLoop_rel {R : St → St → Prop} (hrefl : ∀ s, R s s)
    (htrans : ∀ {a b c : St}, R a b → R b c → R a c)
    (g : String → St → Except IErr Val × St)
    (h : ∀ d s, R s (g d s).2) :
    ∀ ds s, R s (depsLoop g ds s).2 := by
  intro ds
  induction ds with
  | nil => intro s; exact hrefl s
  | cons d ds ih =>
      intro s
      rcases h1 : g d s with ⟨r, s1⟩
      have hs1 : R s s1 := by have := h d s; rwa [h1] at this
      cases r with
      | error e => simp [depsLoop, h1]; exact hs1
      | ok v =>
          rcases h2 : depsLoop g ds s1 with ⟨r2, s2⟩
          have hs2 : R s1 s2 := by have := ih s1; rwa [h2] at this
          cases r2 with
          | error e => simp [depsLoop, h1, h2]; exact htrans hs1 hs2
          | ok vs => simp [depsLoop, h1, h2]; exact htrans hs1 hs2

theorem paramsLoop_rel {R : St → St → Prop} (hrefl : ∀ s, R s s)
    (htrans : ∀ {a b c : St}, R a b → R b c → R a c)
    (pv : List String → Parameter → Option CVal → Bool → St → Except PErr Val × St)
    (inst : String) (cfg : InstanceConfig) (stack : List String) (dry : Bool)
    (h : ∀ p c s, R s (pv stack p c dry s).2) :
    ∀ ps s, R s (paramsLoop pv inst cfg stack dry ps s).2 := by
  intro ps
  induction ps with
  | nil => intro s; exact hrefl s
  | cons p rest ih =>
      intro s
      rcases h1 : pv stack p (lookup cfg.parameters p.name) dry s with ⟨r, s1⟩
      have hs1 : R s s1 := by
        have := h p (lookup cfg.parameters p.name) s; rwa [h1] at this
      cases r with
      | error e =>
          cases e with
          | validation e => simp [paramsLoop, h1]; exact hs1
          | inst e => simp [paramsLoop, h1]; exact hs1
      | ok v =>
          rcases h2 : paramsLoop pv inst cfg stack dry rest s1 with ⟨r2, s2⟩
          have hs2 : R s1 s2 := by have := ih s1; rwa [h2] at this
          cases r2 with
          | error e => simp [paramsLoop, h1, h2]; exact htrans hs1 hs2
          | ok vs => simp [paramsLoop, h1, h2]; exact htrans hs1 hs2

theorem asyncGetPlain_snd (prev : EngineFns) (name : String) (stack : List String)
    (dry : Bool) (s : St) :
    (asyncGetPlain prev name stack dry s).2 = (prev.raw name stack dry s).2 := by
  rcases h : prev.raw name stack dry s with ⟨r, s'⟩
  cases r <;> simp [asyncGetPlain, h]

/-! ### Entry stability: a finished (or in-flight) cache entry for `n` is
never overwritten by the engine, and no further acquisition for `n` is
performed while it is present. -/

def entryStable (n : String) (s s' : St) : Prop :=
  ∀ e, lookup s.instances n = some e →
    (lookup s'.instances n = some e ∧ countAcq s' n = countAcq s n)

theorem entryStable_refl (n : String) (s : St) : entryStable n s s :=
  fun _ he => ⟨he, rfl⟩

theorem entryStable_trans {n : String} {a b c : St}
    (h1 : entryStable n a b) (h2 : entryStable n b c) : entryStable n a c := by
  intro e he
  obtain ⟨hb, cb⟩ := h1 e he
  obtain ⟨hc, cc⟩ := h2 e hb
  exact ⟨hc, cc.trans cb⟩

theorem engine_entryStable (env : Env) (n : String) :
    ∀ fuel : Nat,
      (∀ name stack dry s, entryStable n s ((engine env fuel).raw name stack dry s).2) ∧
      (∀ stack p c dry s, entryStable n s ((engine env fuel).pval stack p c dry s).2) := by
  intro fuel
  induction fuel with
  | zero => exact ⟨fun _ _ _ s => entryStable_refl n s, fun _ _ _ _ s => entryStable_refl n s⟩
  | succ fuel ih =>
      obtain ⟨ihRaw, ihPval⟩ := ih
      constructor
      · intro name stack dry s
        show entryStable n s (rawF env (engine env fuel) name stack dry s).2
        rcases hl : lookup s.instances name with _ | e
        case some =>
          cases e with
          | initializing => simp only [rawF, hl]; exact entryStable_refl n s
          | val v => simp only [rawF, hl]; exact entryStable_refl n s
        case none =>
          intro e he
          have hne : n ≠ name := by
            intro h; rw [h, hl] at he; cases he
          have key : ∀ (cfg : InstanceConfig) (ps : List Parameter) r (s2 : St),
              paramsLoop (engine env fuel).pval name cfg (stack ++ [name]) dry ps
                { s with instances := setKey s.instances name .initializing } = (r, s2) →
              lookup s2.instances n = some e ∧ countAcq s2 n = countAcq s n := by
            intro cfg ps r s2 hpl
            have h0 := paramsLoop_rel (R := entryStable n) (entryStable_refl n)
              entryStable_trans (engine env fuel).pval name cfg (stack ++ [name]) dry
              (fun p c s0 => ihPval _ p c dry s0) ps
              { s with instances := setKey s.instances name .initializing }
            rw [hpl] at h0
            have hmk : lookup (setKey s.instances name .initializing) n = some e := by
              rw [lookup_setKey_ne _ _ _ _ hne]; exact he
            obtain ⟨ha, hb⟩ := h0 e hmk
            exact ⟨ha, hb⟩
          simp only [rawF, hl]
          split
          · constructor
            · show lookup (delKey (setKey s.instances name .initializing) name) n = some e
              rw [lookup_delKey_ne _ _ _ hne, lookup_setKey_ne _ _ _ _ hne]; exact he
            · rfl
          · split
            next r s2 heq =>
              obtain ⟨ha, hb⟩ := key _ _ _ _ heq
              exact ⟨by rw [lookup_delKey_ne _ _ _ hne]; exact ha, hb⟩
            next r s2 heq =>
              obtain ⟨ha, hb⟩ := key _ _ _ _ heq
              split
              · exact ⟨by rw [lookup_delKey_ne _ _ _ hne]; exact ha, hb⟩
              · split
                · exact ⟨by rw [lookup_delKey_ne _ _ _ hne]; exact ha, hb⟩
                · refine ⟨by rw [lookup_setKey_ne _ _ _ _ hne]; exact ha, ?_⟩
                  have hfalse : (name == n) = false :=
                    beq_eq_false_iff_ne.mpr (Ne.symm hne)
                  simp only [countAcq] at hb ⊢
                  simp [List.filter_append, List.filter, hfalse, hb]
      · intro stack p c dry s
        show entryStable n s (pvalF (engine env fuel) stack p c dry s).2
        have hdeps : ∀ (ds : List String) r (s' : St),
            depsLoop (fun d t => asyncGetPlain (engine env fuel) d stack dry t) ds s
              = (r, s') → entryStable n s s' := by
          intro ds r s' hdl
          have h0 := depsLoop_rel (R := entryStable n) (entryStable_refl n)
            entryStable_trans (fun d t => asyncGetPlain (engine env fuel) d stack dry t)
            (fun d s0 => by
              rw [asyncGetPlain_snd]
              exact ihRaw d stack dry s0) ds s
          rwa [hdl] at h0
        simp only [pvalF]
        split
        · split
          next r s' heq =>
            have := ihRaw p.name stack dry s
            rw [heq] at this; exact this
          next r s' heq =>
            have := ihRaw p.name stack dry s
            rw [heq] at this; exact this
        · split
          · exact entryStable_refl n s
          · split
            next r s' heq => exact hdeps _ _ _ heq
            next r s' heq => exact hdeps _ _ _ heq

/-! ### Dry-run identity: in dry-run mode the engine never changes the
state — no caching, no acquisition, no release registration, and every
initializing marker it plants is removed again on all paths. -/

theorem engine_dryId (env : Env) :
    ∀ fuel : Nat,
      (∀ name stack s, ((engine env fuel).raw name stack true s).2 = s) ∧
      (∀ stack p c s, ((engine env fuel).pval stack p c true s).2 = s) := by
  intro fuel
  induction fuel with
  | zero => exact ⟨fun _ _ s => rfl, fun _ _ _ s => rfl⟩
  | succ fuel ih =>
      obtain ⟨ihRaw, ihPval⟩ := ih
      constructor
      · intro name stack s
        show (rawF env (engine env fuel) name stack true s).2 = s
        rcases hl : lookup s.instances name with _ | e
        case some =>
          cases e with
          | initializing => simp only [rawF, hl]
          | val v => simp only [rawF, hl]
        case none =>
          have hrestore : delKey (setKey s.instances name .initializing) name
              = s.instances := delKey_setKey_absent _ _ _ hl
          have key : ∀ (cfg : InstanceConfig) (ps : List Parameter) r (s2 : St),
              paramsLoop (engine env fuel).pval name cfg (stack ++ [name]) true ps
                { s with instances := setKey s.instances name .initializing } = (r, s2) →
              s2 = { s with instances := setKey s.instances name .initializing } := by
            intro cfg ps r s2 hpl
            have h0 := paramsLoop_rel (R := fun a b => b = a) (fun _ => rfl)
              (fun hab hbc => hbc.trans hab) (engine env fuel).pval name cfg
              (stack ++ [name]) true (fun p c s0 => ihPval _ p c s0) ps
              { s with instances := setKey s.instances name .initializing }
            rwa [hpl] at h0
          simp only [rawF, hl]
          split
          · simp [hrestore]
          · split
            next r s2 heq =>
              have h2 := key _ _ _ _ heq
              subst h2
              simp [hrestore]
            next r s2 heq =>
              have h2 := key _ _ _ _ heq
              subst h2
              simp [hrestore]
      · intro stack p c s
        show (pvalF (engine env fuel) stack p c true s).2 = s
        have hdeps : ∀ (ds : List String) r (s' : St),
            depsLoop (fun d t => asyncGetPlain (engine env fuel) d stack true t) ds s
              = (r, s') → s' = s := by
          intro ds r s' hdl
          have h0 := depsLoop_rel (R := fun a b => b = a) (fun _ => rfl)
            (fun hab hbc => hbc.trans hab)
            (fun d t => asyncGetPlain (engine env fuel) d stack true t)
            (fun d s0 => by
              rw [asyncGetPlain_snd]
              exact ihRaw d stack s0) ds s
          rwa [hdl] at h0
        simp only [pvalF]
        split
        · split
          next r s' heq =>
            have := ihRaw p.name stack s
            rw [heq] at this; exact this
          next r s' heq =>
            have := ihRaw p.name stack s
            rw [heq] at this; exact this
        · split
          · rfl
          · split
            next r s' heq => exact hdeps _ _ _ heq
            next r s' heq => exact hdeps _ _ _ heq

/-! ### Initializing markers never leak: every marker present after an
engine call was already present before it (each frame removes its own
marker on every exit path). -/

def initLe (s s' : St) : Prop :=
  ∀ m, lookup s'.instances m = some .initializing →
    lookup s.instances m = some .initializing

theorem initLe_refl (s : St) : initLe s s := fun _ h => h

theorem initLe_trans {a b c : St} (h1 : initLe a b) (h2 : initLe b c) : initLe a c :=
  fun m hm => h1 m (h2 m hm)

theorem engine_initLe (env : Env) :
    ∀ fuel : Nat,
      (∀ name stack dry s, initLe s ((engine env fuel).raw name stack dry s).2) ∧
      (∀ stack p c dry s, initLe s ((engine env fuel).pval stack p c dry s).2) := by
  intro fuel
  induction fuel with
  | zero => exact ⟨fun _ _ _ s => initLe_refl s, fun _ _ _ _ s => initLe_refl s⟩
  | succ fuel ih =>
      obtain ⟨ihRaw, ihPval⟩ := ih
      constructor
      · intro name stack dry s
        show initLe s (rawF env (engine env fuel) name stack dry s).2
        rcases hl : lookup s.instances name with _ | e
        case some =>
          cases e with
          | initializing => simp only [rawF, hl]; exact initLe_refl s
          | val v => simp only [rawF, hl]; exact initLe_refl s
        case none =>
          have key : ∀ (cfg : InstanceConfig) (ps : List Parameter) r (s2 : St),
              paramsLoop (engine env fuel).pval name cfg (stack ++ [name]) dry ps
                { s with instances := setKey s.instances name .initializing } = (r, s2) →
              initLe ({ s with instances := setKey s.instances name .initializing } : St) s2 := by
            intro cfg ps r s2 hpl
            have h0 := paramsLoop_rel (R := initLe) initLe_refl initLe_trans
              (engine env fuel).pval name cfg (stack ++ [name]) dry
              (fun p c s0 => ihPval _ p c dry s0) ps
              { s with instances := setKey s.instances name .initializing }
            rwa [hpl] at h0
          have hdel : ∀ s2 : St,
              initLe ({ s with instances := setKey s.instances name .initializing } : St) s2 →
              initLe s ({ s2 with instances := delKey s2.instances name } : St) := by
            intro s2 h2 m hm
            by_cases hmn : m = name
            · rw [hmn] at hm
              rw [show lookup (delKey s2.instances name) name = Option.none from
                lookup_delKey_self _ _] at hm
              cases hm
            · rw [show lookup (delKey s2.instances name) m = lookup s2.instances m from
                lookup_delKey_ne _ _ _ hmn] at hm
              have := h2 m hm
              rwa [show lookup (setKey s.instances name .initializing) m
                  = lookup s.instances m from lookup_setKey_ne _ _ _ _ hmn] at this
          simp only [rawF, hl]
          split
          · exact hdel _ (initLe_refl _)
          · split
            next r s2 heq => exact hdel _ (key _ _ _ _ heq)
            next r s2 heq =>
              split
              · exact hdel _ (key _ _ _ _ heq)
              · split
                · exact hdel _ (key _ _ _ _ heq)
                · intro m hm
                  have h2 := key _ _ _ _ heq
                  by_cases hmn : m = name
                  · rw [hmn] at hm
                    rw [show lookup (setKey s2.instances name (.val _)) name
                        = some (.val _) from lookup_setKey_self _ _ _] at hm
                    cases hm
                  · rw [show lookup (setKey s2.instances name (.val _)) m
                        = lookup s2.instances m from lookup_setKey_ne _ _ _ _ hmn] at hm
                    have := h2 m hm
                    rwa [show lookup (setKey s.instances name .initializing) m
                        = lookup s.instances m from lookup_setKey_ne _ _ _ _ hmn] at this
      · intro stack p c dry s
        show initLe s (pvalF (engine env fuel) stack p c dry s).2
        have hdeps : ∀ (ds : List String) r (s' : St),
            depsLoop (fun d t => asyncGetPlain (engine env fuel) d stack dry t) ds s
              = (r, s') → initLe s s' := by
          intro ds r s' hdl
          have h0 := depsLoop_rel (R := initLe) initLe_refl initLe_trans
            (fun d t => asyncGetPlain (engine env fuel) d stack dry t)
            (fun d s0 => by
              rw [asyncGetPlain_snd]
              exact ihRaw d stack dry s0) ds s
          rwa [hdl] at h0
        simp only [pvalF]
        split
        · split
          next r s' heq =>
            have := ihRaw p.name stack dry s
            rw [heq] at this; exact this
          next r s' heq =>
            have := ihRaw p.name stack dry s
            rw [heq] at this; exact this
        · split
          · exact initLe_refl s
          · split
            next r s' heq => exact hdeps _ _ _ heq
            next r s' heq => exact hdeps _ _ _ heq

/-! ### Exit-stack invariant: the registered releases are exactly the
acquisitions so far, most recent first. -/

def relOK (s : St) : Prop := s.releases = s.acqLog.reverse

theorem engine_relOK (env : Env) :
    ∀ fuel : Nat,
      (∀ name stack dry s, relOK s → relOK ((engine env fuel).raw name stack dry s).2) ∧
      (∀ stack p c dry s, relOK s → relOK ((engine env fuel).pval stack p c dry s).2) := by
  intro fuel
  induction fuel with
  | zero => exact ⟨fun _ _ _ _ h => h, fun _ _ _ _ _ h => h⟩
  | succ fuel ih =>
      obtain ⟨ihRaw, ihPval⟩ := ih
      constructor
      · intro name stack dry s hok
        show relOK (rawF env (engine env fuel) name stack dry s).2
        rcases hl : lookup s.instances name with _ | e
        case some =>
          cases e with
          | initializing => simp only [rawF, hl]; exact hok
          | val v => simp only [rawF, hl]; exact hok
        case none =>
          have key : ∀ (cfg : InstanceConfig) (ps : List Parameter) r (s2 : St),
              paramsLoop (engine env fuel).pval name cfg (stack ++ [name]) dry ps
                { s with instances := setKey s.instances name .initializing } = (r, s2) →
              relOK s2 := by
            intro cfg ps r s2 hpl
            have h0 := paramsLoop_rel (R := fun a b => relOK a → relOK b)
              (fun _ h => h) (fun hab hbc h => hbc (hab h)) (engine env fuel).pval
              name cfg (stack ++ [name]) dry (fun p c s0 => ihPval _ p c dry s0) ps
              { s with instances := setKey s.instances name .initializing }
            rw [hpl] at h0
            exact h0 hok
          simp only [rawF, hl]
          split
          · exact hok
          · split
            next r s2 heq =>
              have h2 := key _ _ _ _ heq
              exact h2
            next r s2 heq =>
              split
              · have h2 := key _ _ _ _ heq
                exact h2
              · split
                · have h2 := key _ _ _ _ heq
                  exact h2
                · have h2 := key _ _ _ _ heq
                  show (_ : List ReleaseEntry) = _
                  simp only [relOK] at h2
                  simp [h2, List.reverse_append]
      · intro stack p c dry s hok
        show relOK (pvalF (engine env fuel) stack p c dry s).2
        have hdeps : ∀ (ds : List String) r (s' : St),
            depsLoop (fun d t => asyncGetPlain (engine env fuel) d stack dry t) ds s
              = (r, s') → relOK s' := by
          intro ds r s' hdl
          have h0 := depsLoop_rel (R := fun a b => relOK a → relOK b)
            (fun _ h => h) (fun hab hbc h => hbc (hab h))
            (fun d t => asyncGetPlain (engine env fuel) d stack dry t)
            (fun d s0 => by
              rw [asyncGetPlain_snd]
              exact ihRaw d stack dry s0) ds s
          rw [hdl] at h0
          exact h0 hok
        simp only [pvalF]
        split
        · split
          next r s' heq =>
            have := ihRaw p.name stack dry s hok
            rw [heq] at this; exact this
          next r s' heq =>
            have := ihRaw p.name stack dry s hok
            rw [heq] at this; exact this
        · split
          · exact hok
          · split
            next r s' heq => exact hdeps _ _ _ heq
            next r s' heq => exact hdeps _ _ _ heq

/-! ### The reported dependency-cycle chain: it extends the build stack at
the point of the call, and its final name repeats an earlier name of the
chain (the instance whose in-flight initialization was re-entered). -/

def initOK (s : St) (stack : List String) : Prop :=
  ∀ m, lookup s.instances m = some .initializing → m ∈ stack

def lastRep (c : List String) : Prop :=
  ∃ m, c.getLast? = some m ∧ m ∈ c.dropLast

theorem initOK_of_initLe {s s' : St} {stack : List String}
    (h : initOK s stack) (hle : initLe s s') : initOK s' stack :=
  fun m hm => h m (hle m hm)

theorem finishParamVal_not_inst (p : Parameter) (dry : Bool) (pv : Val) (e : IErr) :
    finishParamVal p dry pv ≠ .error (.inst e) := by
  unfold finishParamVal
  split
  · intro h; cases h
  · split
    · intro h; cases h
    · split
      · intro h; cases h
      · intro h
        injection h with h
        cases h

theorem paramsLoop_cyc
    (pv : List String → Parameter → Option CVal → Bool → St → Except PErr Val × St)
    (inst : String) (cfg : InstanceConfig) (stack : List String) (dry : Bool)
    (hLe : ∀ p c s, initLe s (pv stack p c dry s).2)
    (hCyc : ∀ p c s cc s2, initOK s stack →
        pv stack p c dry s = (.error (.inst (.dependencyCycle cc)), s2) →
        (∃ u, cc = stack ++ u ∧ u ≠ []) ∧ lastRep cc) :
    ∀ ps s cc s2, initOK s stack →
      paramsLoop pv inst cfg stack dry ps s = (.error (.dependencyCycle cc), s2) →
      (∃ u, cc = stack ++ u ∧ u ≠ []) ∧ lastRep cc := by
  intro ps
  induction ps with
  | nil => intro s cc s2 _ hpl; simp [paramsLoop] at hpl
  | cons p ps ihps =>
      intro s cc s2 hok hpl
      rcases h1 : pv stack p (lookup cfg.parameters p.name) dry s with ⟨r1, s1⟩
      simp only [paramsLoop] at hpl
      rw [h1] at hpl
      cases r1 with
      | error e1 =>
          cases e1 with
          | validation e1 => simp at hpl
          | inst e1 =>
              simp only [] at hpl
              simp only [Prod.mk.injEq] at hpl
              obtain ⟨he1, _⟩ := hpl
              injection he1 with he1
              subst he1
              exact hCyc p _ s cc s1 hok h1
      | ok v =>
          simp only [] at hpl
          rcases h2 : paramsLoop pv inst cfg stack dry ps s1 with ⟨r2, s4⟩
          rw [h2] at hpl
          cases r2 with
          | error e2 =>
              simp only [] at hpl
              simp only [Prod.mk.injEq] at hpl
              obtain ⟨he2, _⟩ := hpl
              injection he2 with he2
              subst he2
              have hok1 : initOK s1 stack := by
                refine initOK_of_initLe hok ?_
                have := hLe p (lookup cfg.parameters p.name) s
                rwa [h1] at this
              exact ihps s1 cc s4 hok1 h2
          | ok vs => simp at hpl

theorem engine_cyc (env : Env) :
    ∀ fuel : Nat,
      (∀ name stack dry s c s2, initOK s stack →
        (engine env fuel).raw name stack dry s = (.error (.dependencyCycle c), s2) →
        (∃ t, c = stack ++ name :: t) ∧ lastRep c) ∧
      (∀ stack p cv dry s c s2, initOK s stack →
        (engine env fuel).pval stack p cv dry s = (.error (.inst (.dependencyCycle c)), s2) →
        (∃ u, c = stack ++ u ∧ u ≠ []) ∧ lastRep c) := by
  intro fuel
  induction fuel with
  | zero =>
      constructor
      · intro name stack dry s c s2 _ heq
        simp only [engine] at heq
        simp at heq
      · intro stack p cv dry s c s2 _ heq
        simp only [engine] at heq
        simp at heq
  | succ fuel ih =>
      obtain ⟨ihRaw, ihPval⟩ := ih
      have hLeRaw := (engine_initLe env fuel).1
      have hLePval := (engine_initLe env fuel).2
      -- the dependency loop: any cycle error it returns comes from a raw
      -- call on one of the dependency names, whose chain extends the stack
      have hdepsCyc : ∀ stack dry, ∀ (ds : List String) (s : St) c (s2 : St), initOK s stack →
          depsLoop (fun d t => asyncGetPlain (engine env fuel) d stack dry t) ds s
            = (.error (.dependencyCycle c), s2) →
          (∃ u, c = stack ++ u ∧ u ≠ []) ∧ lastRep c := by
        intro stack dry ds
        induction ds with
        | nil => intro s c s2 _ heq; simp [depsLoop] at heq
        | cons d ds ihds =>
            intro s c s2 hok heq
            rcases h1 : asyncGetPlain (engine env fuel) d stack dry s with ⟨r1, s1⟩
            cases r1 with
            | error e1 =>
                rw [depsLoop, h1] at heq
                simp only [Prod.mk.injEq] at heq
                obtain ⟨he, _⟩ := heq
                injection he with he
                subst he
                -- the error is from the raw call on `d`
                rcases h2 : (engine env fuel).raw d stack dry s with ⟨r2, s3⟩
                have h1' : asyncGetPlain (engine env fuel) d stack dry s
                    = (match (engine env fuel).raw d stack dry s with
                       | (.error e, s') => (.error e, s')
                       | (.ok v, s') => (.ok (unwrapSkip v), s')) := rfl
                rw [h2] at h1'
                cases r2 with
                | error e2 =>
                    rw [h1'] at h1
                    simp only [Prod.mk.injEq] at h1
                    obtain ⟨he2, hs2⟩ := h1
                    injection he2 with he2
                    subst he2 hs2
                    obtain ⟨⟨t, ht⟩, hrep⟩ := ihRaw d stack dry s c s3 hok h2
                    refine ⟨⟨d :: t, ?_⟩, hrep⟩
                    simp [ht]
                | ok v =>
                    rw [h1'] at h1
                    simp at h1
            | ok v =>
                rw [depsLoop, h1] at heq
                simp only [] at heq
                rcases h2 : depsLoop (fun d t => asyncGetPlain (engine env fuel) d stack dry t)
                    ds s1 with ⟨r2, s3⟩
                rw [h2] at heq
                cases r2 with
                | error e2 =>
                    simp only [Prod.mk.injEq] at heq
                    obtain ⟨he, _⟩ := heq
                    injection he with he
                    subst he
                    have hok1 : initOK s1 stack := by
                      refine initOK_of_initLe hok ?_
                      have := hLeRaw d stack dry s
                      rw [show ((engine env fuel).raw d stack dry s).2 = s1 from by
                        rw [show s1 = (asyncGetPlain (engine env fuel) d stack dry s).2 from by
                          rw [h1]]
                        rw [asyncGetPlain_snd]] at this
                      exact this
                    exact ihds s1 c s3 hok1 h2
                | ok vs => simp at heq
      constructor
      · intro name stack dry s c s2 hok heq
        rw [show (engine env (fuel + 1)).raw = rawF env (engine env fuel) from rfl] at heq
        rcases hl : lookup s.instances name with _ | e
        case some =>
          cases e with
          | initializing =>
              rw [rawF] at heq
              simp only [hl] at heq
              simp only [Prod.mk.injEq] at heq
              obtain ⟨he, _⟩ := heq
              injection he with he
              injection he with he
              subst he
              refine ⟨⟨[], rfl⟩, ?_⟩
              refine ⟨name, ?_, ?_⟩
              · rw [show stack ++ name :: [] = stack ++ [name] from rfl]
                exact List.getLast?_concat _
              · rw [show stack ++ name :: [] = stack ++ [name] from rfl,
                  List.dropLast_concat]
                exact hok name hl
          | val v =>
              rw [rawF] at heq
              simp only [hl] at heq
              simp at heq
        case none =>
          have hok1 : initOK ({ s with instances := setKey s.instances name .initializing } : St)
              (stack ++ [name]) := by
            intro m hm
            by_cases hmn : m = name
            · subst hmn; simp
            · rw [show lookup (setKey s.instances name .initializing) m
                  = lookup s.instances m from lookup_setKey_ne _ _ _ _ hmn] at hm
              have := hok m hm
              simp [this]
          rw [rawF] at heq
          simp only [hl] at heq
          split at heq
          · simp only [Prod.mk.injEq] at heq
            obtain ⟨he, _⟩ := heq
            injection he with he
            cases he
          · split at heq
            next r s3 hpl =>
              simp only [Prod.mk.injEq] at heq
              obtain ⟨he, _⟩ := heq
              injection he with he
              subst he
              have hplCyc : (∃ u, c = (stack ++ [name]) ++ u ∧ u ≠ []) ∧ lastRep c :=
                paramsLoop_cyc (engine env fuel).pval name _ (stack ++ [name]) dry
                  (fun p cv0 s0 => hLePval (stack ++ [name]) p cv0 dry s0)
                  (fun p cv0 s0 cc ss hok0 heq0 =>
                    ihPval (stack ++ [name]) p cv0 dry s0 cc ss hok0 heq0)
                  _ _ c s3 hok1 hpl
              obtain ⟨⟨u, hu, hune⟩, hrep⟩ := hplCyc
              refine ⟨⟨u, ?_⟩, hrep⟩
              simp [hu]
            next r s3 hpl =>
              split at heq
              · simp at heq
              · split at heq
                · simp only [Prod.mk.injEq] at heq
                  obtain ⟨he, _⟩ := heq
                  injection he with he
                  cases he
                · simp at heq
      · intro stack p cv dry s c s2 hok heq
        rw [show (engine env (fuel + 1)).pval = pvalF (engine env fuel) from rfl] at heq
        simp only [pvalF] at heq
        split at heq
        · split at heq
          next r s' hr =>
            simp only [Prod.mk.injEq] at heq
            obtain ⟨he, _⟩ := heq
            injection he with he
            injection he with he
            subst he
            obtain ⟨⟨t, ht⟩, hrep⟩ := ihRaw p.name stack dry s c s' hok hr
            refine ⟨⟨p.name :: t, ?_, by simp⟩, hrep⟩
            simp [ht]
          next r s' hr =>
            simp only [Prod.mk.injEq] at heq
            obtain ⟨he, _⟩ := heq
            exact absurd he (finishParamVal_not_inst _ _ _ _)
        · split at heq
          · simp only [Prod.mk.injEq] at heq
            obtain ⟨he, _⟩ := heq
            exact absurd he (finishParamVal_not_inst _ _ _ _)
          · split at heq
            next r s' hdl =>
              simp only [Prod.mk.injEq] at heq
              obtain ⟨he, _⟩ := heq
              injection he with he
              injection he with he
              subst he
              exact hdepsCyc stack dry _ s c s' hok hdl
            next r s' hdl =>
              simp only [Prod.mk.injEq] at heq
              obtain ⟨he, _⟩ := heq
              exact absurd he (finishParamVal_not_inst _ _ _ _)

/-! ### Characterization helpers for the claim theorems -/

theorem closeStack_fst : ∀ l : List ReleaseEntry, (closeStack l).1 = l := by
  intro l
  induction l with
  | nil => rfl
  | cons r rest ih =>
      rcases h : closeStack rest with ⟨ran, errs⟩
      rw [h] at ih
      simp only [] at ih
      simp only [closeStack, h]
      simp [ih]

theorem lookup_append {α : Type} (l1 l2 : List (String × α)) (k : String) :
    lookup (l1 ++ l2) k
      = (match lookup l1 k with
         | some v => some v
         | Option.none => lookup l2 k) := by
  induction l1 with
  | nil => simp [lookup]
  | cons hd tl ih =>
      obtain ⟨k0, v0⟩ := hd
      by_cases h0 : k0 = k
      · simp [lookup, h0]
      · simp [lookup, h0, ih]

theorem asyncGet_none_eq (fuel : Nat) (env : Env) (name : String) (stack : List String)
    (dry : Bool) (s : St) :
    asyncGet fuel env name stack dry Option.none s
      = (match getRaw fuel env name stack dry s with
         | (.error e, s') => (.error e, s')
         | (.ok v, s') => (.ok (unwrapSkip v), s')) := by
  unfold asyncGet
  rcases h : getRaw fuel env name stack dry s with ⟨r, s'⟩
  cases r with
  | error e => rfl
  | ok v => cases v <;> rfl

theorem asyncGet_error (fuel : Nat) (env : Env) (name : String) (stack : List String)
    (dry : Bool) (ct : Option (Val → Except VErr Val)) (s : St) (e : IErr) (s2 : St) :
    asyncGet fuel env name stack dry ct s = (.error e, s2) →
    getRaw fuel env name stack dry s = (.error e, s2) ∨
    ∃ t v, e = .invalidInstanceType name t v := by
  intro h
  unfold asyncGet at h
  rcases hr : getRaw fuel env name stack dry s with ⟨r, s'⟩
  rw [hr] at h
  cases r with
  | error e0 =>
      simp only [] at h
      simp only [Prod.mk.injEq] at h
      obtain ⟨h1, h2⟩ := h
      injection h1 with h1
      subst h1 h2
      exact Or.inl rfl
  | ok v =>
      simp only [] at h
      split at h
      · simp at h
      · rcases ct with _ | vd
        · simp at h
        · simp only [] at h
          split at h
          next w hvd => simp at h
          next e1 hvd =>
            simp only [Prod.mk.injEq] at h
            obtain ⟨h1, _⟩ := h
            injection h1 with h1
            exact Or.inr ⟨e1.expectedType, e1.value, h1.symm⟩

theorem getRaw_ok_cached (fuel : Nat) (env : Env) (n : String) (stack : List String)
    (s : St) (v : Val) (s' : St) :
    getRaw fuel env n stack false s = (.ok v, s') →
    lookup s'.instances n = some (.val v) := by
  intro h
  cases fuel with
  | zero => simp [getRaw, engine] at h
  | succ fuel =>
      rw [show getRaw (fuel + 1) env n stack false s
          = rawF env (engine env fuel) n stack false s from rfl] at h
      rw [rawF] at h
      rcases hl : lookup s.instances n with _ | e
      case some =>
        cases e with
        | initializing => simp only [hl] at h; simp at h
        | val w =>
            simp only [hl] at h
            simp only [Prod.mk.injEq] at h
            obtain ⟨h1, h2⟩ := h
            injection h1 with h1
            subst h1 h2
            exact hl
      case none =>
        simp only [hl] at h
        split at h
        · simp at h
        · split at h
          next r s2 heq => simp at h
          next r s2 heq =>
            rw [if_neg Bool.false_ne_true] at h
            split at h
            next msg hacq => simp at h
            next w hacq =>
                simp only [Prod.mk.injEq] at h
                obtain ⟨h1, h2⟩ := h
                injection h1 with h1
                subst h1
                rw [← h2]
                exact lookup_setKey_self _ _ _

theorem getRaw_error_clean (fuel : Nat) (env : Env) (n : String) (stack : List String)
    (dry : Bool) (s : St) (e : IErr) (s1 : St) :
    lookup s.instances n = Option.none →
    getRaw fuel env n stack dry s = (.error e, s1) →
    lookup s1.instances n = Option.none := by
  intro hl h
  cases fuel with
  | zero =>
      simp only [getRaw, engine] at h
      simp only [Prod.mk.injEq] at h
      obtain ⟨_, h2⟩ := h
      rw [← h2]
      exact hl
  | succ fuel =>
      rw [show getRaw (fuel + 1) env n stack dry s
          = rawF env (engine env fuel) n stack dry s from rfl] at h
      rw [rawF] at h
      simp only [hl] at h
      split at h
      · simp only [Prod.mk.injEq] at h
        obtain ⟨_, h2⟩ := h
        rw [← h2]
        exact lookup_delKey_self _ _
      · split at h
        next r s2 heq =>
          simp only [Prod.mk.injEq] at h
          obtain ⟨_, h2⟩ := h
          rw [← h2]
          exact lookup_delKey_self _ _
        next r s2 heq =>
          split at h
          · simp only [Prod.mk.injEq] at h
            obtain ⟨h1, h2⟩ := h
            cases h1
          · split at h
            next msg hacq =>
              simp only [Prod.mk.injEq] at h
              obtain ⟨_, h2⟩ := h
              rw [← h2]
              exact lookup_delKey_self _ _
            next w hacq => simp at h

theorem finishParamVal_mk (nm1 nm2 : String) (d1 d2 : Option CVal)
    (vl : Val → Except VErr Val) (dry : Bool) (pv : Val) :
    finishParamVal ⟨nm1, d1, vl⟩ dry pv = finishParamVal ⟨nm2, d2, vl⟩ dry pv := by
  cases pv <;> rfl

theorem finishParamVal_not_skip (p : Parameter) (pv : Val) (h : ∀ w, pv ≠ .skip w)
    (dry : Bool) :
    finishParamVal p dry pv
      = (if dry then .ok pv
         else match p.validator pv with
              | .ok w => .ok w
              | .error e => .error (.validation e)) := by
  cases pv <;> first
    | rfl
    | exact absurd rfl (h _)

theorem pvalF_ignores_default (prev : EngineFns) (stack : List String)
    (nm : String) (d1 d2 : Option CVal) (vl : Val → Except VErr Val)
    (cv : CVal) (dry : Bool) (s : St) :
    pvalF prev stack ⟨nm, d1, vl⟩ (some cv) dry s
      = pvalF prev stack ⟨nm, d2, vl⟩ (some cv) dry s := by
  unfold pvalF
  simp only []
  rcases hp : cv.plainVal? with _ | v
  · simp only [hp]
    rcases hdl : depsLoop (fun d t => asyncGetPlain prev d stack dry t)
        (CVal.depList cv).eraseDups s with ⟨r, s'⟩
    cases r with
    | error e => rfl
    | ok vs =>
        simp only []
        rw [finishParamVal_mk]
  · simp only [hp]
    rw [finishParamVal_mk]

/-! ### Claim theorems -/

/-- Claim C2 (amended): when `get(n)` — or `ensureConstructible(n)`, or any
typed `get` — fails with a dependency-cycle error from a state with no
in-flight initializations, the reported chain is the build path exactly
as encountered: it starts at the requested instance `n`, and its final
name repeats a name occurring earlier in the chain (the instance whose
in-flight initialization was re-entered); in particular for a cycle
first encountered through `n` itself the chain starts and ends at `n`. -/
theorem claim2_cycle_chain : ∀ fuel env name dry ct s c s2,
    (∀ m, lookup s.instances m = some CacheEntry.initializing → False) →
    asyncGet fuel env name [] dry ct s = (.error (.dependencyCycle c), s2) →
    c.head? = some name ∧ ∃ m, c.getLast? = some m ∧ m ∈ c.dropLast := by
  intro fuel env name dry ct s c s2 hinit heq
  rcases asyncGet_error fuel env name [] dry ct s _ s2 heq with hraw | ⟨_, _, het⟩
  · have hok : initOK s [] := fun m hm => (hinit m hm).elim
    have h0 := (engine_cyc env fuel).1 name [] dry s c s2 hok hraw
    obtain ⟨⟨t, ht⟩, hrep⟩ := h0
    constructor
    · rw [ht]; rfl
    · exact hrep
  · simp at het

/-- Claim C2 counterexample: instance `n` is configured (through its
second parameter, named `n`, implicitly wired to the instance `n`) to
depend on itself, yet `get('n')` reports the cycle `n → b → c → b`
first encountered through its first parameter — a chain that does not
end at `n`. -/
theorem claim2_counterexample :
    ((lookup envC2.impls "n").map (fun i => i.params.map Parameter.name))
        = some ["b", "n"] ∧
    asyncGet 10 envC2 "n" [] false Option.none freshSt
      = (.error (.dependencyCycle ["n", "b", "c", "b"]), freshSt) ∧
    (["n", "b", "c", "b"] : List String).getLast? = some "b" ∧ "b" ≠ "n" :=
  ⟨rfl, rfl, rfl, by decide⟩

theorem claim2_witness :
    (["a", "a"] : List String).head? = some "a" ∧
      ∃ m, (["a", "a"] : List String).getLast? = some m ∧
        m ∈ (["a", "a"] : List String).dropLast :=
  claim2_cycle_chain 5 envW2 "a" false Option.none freshSt ["a", "a"] freshSt
    (fun m hm => by
      simp only [freshSt, lookup] at hm
      split at hm <;> simp at hm)
    rfl

/-- Claim C4: if resolution of `n` (including dry-run, and any typed get
whose failure is not the final instance-type check) fails while `n` had
no cache entry, the initializing marker for `n` is removed before the
error propagates: the cache holds no entry for `n` afterwards, so a
later `get(n)` can attempt construction again. -/
theorem claim4_failure_cleanup : ∀ fuel env n stack dry ct s e s1,
    lookup s.instances n = Option.none →
    asyncGet fuel env n stack dry ct s = (.error e, s1) →
    (∀ t v, e ≠ IErr.invalidInstanceType n t v) →
    lookup s1.instances n = Option.none := by
  intro fuel env n stack dry ct s e s1 hl heq hne
  rcases asyncGet_error fuel env n stack dry ct s e s1 heq with hraw | ⟨t, v, het⟩
  · exact getRaw_error_clean fuel env n stack dry s e s1 hl hraw
  · exact absurd het (hne t v)

theorem claim4_witness : lookup freshSt.instances "x" = Option.none :=
  claim4_failure_cleanup 2 envE "x" [] false Option.none freshSt
    (.missingValue ["x"]) freshSt rfl rfl (fun _ _ h => IErr.noConfusion h)

/-- Claim C5: from any state whose exit stack registers exactly the
acquisitions performed so far (most recent first) — in particular from a
fresh container — any engine run preserves that invariant, and closing
the exit stack attempts every registered release in exactly the reverse
order of the acquisitions; a release that raises is still attempted and
does not prevent the remaining, earlier-registered releases. -/
theorem claim5_teardown_order : ∀ fuel env name stack dry s,
    s.releases = s.acqLog.reverse →
    (getRaw fuel env name stack dry s).2.releases
        = (getRaw fuel env name stack dry s).2.acqLog.reverse ∧
    (closeStack (getRaw fuel env name stack dry s).2.releases).1
        = (getRaw fuel env name stack dry s).2.acqLog.reverse ∧
    ∀ r ∈ (getRaw fuel env name stack dry s).2.releases,
      r ∈ (closeStack (getRaw fuel env name stack dry s).2.releases).1 := by
  intro fuel env name stack dry s h
  have h1 : relOK (getRaw fuel env name stack dry s).2 :=
    (engine_relOK env fuel).1 name stack dry s h
  refine ⟨h1, ?_, ?_⟩
  · rw [closeStack_fst]; exact h1
  · intro r hr; rw [closeStack_fst]; exact hr

theorem claim5_witness :
    (getRaw 3 envW1 "a" [] false freshSt).2.releases
        = (getRaw 3 envW1 "a" [] false freshSt).2.acqLog.reverse ∧
    (closeStack (getRaw 3 envW1 "a" [] false freshSt).2.releases).1
        = (getRaw 3 envW1 "a" [] false freshSt).2.acqLog.reverse ∧
    ∀ r ∈ (getRaw 3 envW1 "a" [] false freshSt).2.releases,
      r ∈ (closeStack (getRaw 3 envW1 "a" [] false freshSt).2.releases).1 :=
  claim5_teardown_order 3 envW1 "a" [] false freshSt rfl

/-- Claim C6: `ensureConstructible(n)` leaves the container state — the
instance cache, the exit stack, and the acquisition log — exactly as it
was, whether it succeeds or fails (so it constructs nothing and invokes
no acquisition); consequently `ensureConstructible(n)` followed by
`get(n)` behaves identically to `get(n)` alone. -/
theorem claim6_dry_run_frame : ∀ fuel env name s,
    (ensureConstructible fuel env name s).2 = s ∧
    ∀ fuel2 ct, containerGet fuel2 env name ct (ensureConstructible fuel env name s).2
      = containerGet fuel2 env name ct s := by
  intro fuel env name s
  have hid : (ensureConstructible fuel env name s).2 = s := by
    show (asyncGet fuel env name [] true Option.none s).2 = s
    unfold asyncGet
    rcases h : getRaw fuel env name [] true s with ⟨r, s'⟩
    have hs' : s' = s := by
      have h2 := (engine_dryId env fuel).1 name [] s
      rw [show (engine env fuel).raw name [] true s
          = getRaw fuel env name [] true s from rfl] at h2
      rw [h] at h2
      exact h2
    cases r with
    | error e => exact hs'
    | ok v => cases v <;> exact hs'
  exact ⟨hid, fun fuel2 ct => by rw [hid]⟩

/-- Claim C1: after a successful `get(n)` on a container that has no
cache entry for `n` and has never acquired `n`, the underlying
implementation's acquisition has run exactly once for `n`, and a second
`get(n)` returns the identical cached value leaving the state (hence the
acquisition count) unchanged. -/
theorem claim1_memoization : ∀ fuel env n s v s1,
    lookup s.instances n = Option.none →
    countAcq s n = 0 →
    asyncGet fuel env n [] false Option.none s = (.ok v, s1) →
    countAcq s1 n = 1 ∧
      ∀ fuel2, asyncGet (fuel2 + 1) env n [] false Option.none s1 = (.ok v, s1) := by
  intro fuel env n s v s1 hl hcnt heq
  rw [asyncGet_none_eq] at heq
  rcases hr : getRaw fuel env n [] false s with ⟨r, s1'⟩
  rw [hr] at heq
  cases r with
  | error e => simp at heq
  | ok w =>
      simp only [] at heq
      simp only [Prod.mk.injEq] at heq
      obtain ⟨hv, hs⟩ := heq
      injection hv with hv
      subst hv
      subst hs
      cases fuel with
      | zero => simp [getRaw, engine] at hr
      | succ fuel =>
          rw [show getRaw (fuel + 1) env n [] false s
              = rawF env (engine env fuel) n [] false s from rfl] at hr
          rw [rawF] at hr
          simp only [hl] at hr
          split at hr
          next heq0 => simp at hr
          next impl heq0 =>
            split at hr
            next r0 s2 hpl => simp at hr
            next r0 s2 hpl =>
              rw [if_neg Bool.false_ne_true] at hr
              split at hr
              next msg hacq => simp at hr
              next w0 hacq =>
                simp only [Prod.mk.injEq] at hr
                obtain ⟨h1, h2⟩ := hr
                injection h1 with h1
                subst h1
                have h3 := paramsLoop_rel (R := entryStable n) (entryStable_refl n)
                  entryStable_trans (engine env fuel).pval n
                  ((lookup env.config.instances n).getD ⟨n, []⟩) ([] ++ [n]) false
                  (fun p c s0 => (engine_entryStable env n fuel).2 ([] ++ [n]) p c false s0)
                  impl.params { s with instances := setKey s.instances n .initializing }
                rw [hpl] at h3
                have hini :
                    lookup ({ s with instances := setKey s.instances n .initializing } : St).instances n
                      = some CacheEntry.initializing := lookup_setKey_self _ _ _
                obtain ⟨hai, hac⟩ := h3 _ hini
                constructor
                · rw [← h2]
                  simp only [countAcq] at hac hcnt ⊢
                  simp [List.filter_append, hac, hcnt]
                · intro fuel2
                  rw [asyncGet_none_eq]
                  have hlook : lookup s1'.instances n = some (.val w0) := by
                    rw [← h2]
                    exact lookup_setKey_self _ _ _
                  rw [show getRaw (fuel2 + 1) env n [] false s1'
                      = rawF env (engine env fuel2) n [] false s1' from rfl]
                  rw [rawF]
                  simp only [hlook]

theorem claim1_witness :
    countAcq stW1 "a" = 1 ∧
      ∀ fuel2, asyncGet (fuel2 + 1) envW1 "a" [] false Option.none stW1
        = (.ok (.int 7), stW1) :=
  claim1_memoization 3 envW1 "a" freshSt (.int 7) stW1 rfl rfl rfl

/-- Claim C3: parameter-resolution precedence in `_get_param_val`.  A
configured value is used regardless of the parameter's default; an
absent configured value falls back to the default when one exists; with
neither, an instance of the parameter's own name is resolved recursively
(implicit wiring); and when that recursive resolution finds neither a
cached instance nor an implementation, resolution fails with a
missing-value error carrying the build chain extended by the parameter's
name. -/
theorem claim3_param_precedence :
    (∀ fuel env stack nm d1 d2 vl cv dry s,
        getParamVal fuel env stack ⟨nm, d1, vl⟩ (some cv) dry s
          = getParamVal fuel env stack ⟨nm, d2, vl⟩ (some cv) dry s) ∧
    (∀ fuel env stack (p : Parameter) dv dry s, p.default = some dv →
        getParamVal fuel env stack p Option.none dry s
          = getParamVal fuel env stack p (some dv) dry s) ∧
    (∀ fuel env stack (p : Parameter) dry s, p.default = Option.none →
        getParamVal (fuel + 1) env stack p Option.none dry s
          = (match getRaw fuel env p.name stack dry s with
             | (.error e, s') => (.error (.inst e), s')
             | (.ok pv, s') => (finishParamVal p dry pv, s'))) ∧
    (∀ fuel env stack (p : Parameter) dry s, p.default = Option.none →
        lookup s.instances p.name = Option.none →
        lookup env.impls ((lookup env.config.instances p.name).getD ⟨p.name, []⟩).implName
          = Option.none →
        getParamVal (fuel + 2) env stack p Option.none dry s
          = (.error (.inst (.missingValue (stack ++ [p.name]))), s)) := by
  refine ⟨?_, ?_, ?_, ?_⟩
  · intro fuel env stack nm d1 d2 vl cv dry s
    cases fuel with
    | zero => rfl
    | succ fuel =>
        exact pvalF_ignores_default (engine env fuel) stack nm d1 d2 vl cv dry s
  · intro fuel env stack p dv dry s hd
    cases fuel with
    | zero => rfl
    | succ fuel =>
        show pvalF (engine env fuel) stack p Option.none dry s
          = pvalF (engine env fuel) stack p (some dv) dry s
        unfold pvalF
        simp only [hd]
  · intro fuel env stack p dry s hd
    show pvalF (engine env fuel) stack p Option.none dry s = _
    unfold pvalF
    simp only [hd]
    rfl
  · intro fuel env stack p dry s hd hcache himpl
    show pvalF (engine env (fuel + 1)) stack p Option.none dry s = _
    unfold pvalF
    simp only [hd]
    have hraw : (engine env (fuel + 1)).raw p.name stack dry s
        = (.error (.missingValue (stack ++ [p.name])), s) := by
      show rawF env (engine env fuel) p.name stack dry s = _
      rw [rawF]
      simp only [hcache, himpl]
      rw [delKey_setKey_absent _ _ _ hcache]
    rw [hraw]

theorem claim3_witness :
    getParamVal 2 envE ["z"] (pArg "q") Option.none false freshSt
      = (.error (.inst (.missingValue ["z", "q"])), freshSt) :=
  claim3_param_precedence.2.2.2 0 envE ["z"] (pArg "q") false freshSt rfl rfl rfl

/-- Claim C7 (amended): in non-dry-run resolution, a resolved parameter
value that is not marked "skip validation" has the parameter's
validation function applied, and a validation failure is reported as an
invalid-implementation-parameter error naming the instance, the
parameter, the expected type and the offending value; in dry-run mode
(the mode `ensureConstructible` uses) value validation is skipped. -/
theorem claim7_validation_reporting : ∀ fuel env n stack s implName impl p v err,
    lookup s.instances n = Option.none →
    lookup env.config.instances n = some ⟨implName, [(p.name, .plain v)]⟩ →
    lookup env.impls implName = some impl →
    impl.params = [p] →
    (∀ w, v ≠ .skip w) →
    p.validator v = .error err →
    getRaw (fuel + 2) env n stack false s
      = (.error (.invalidImplParam n p.name err.expectedType err.value), s) := by
  intro fuel env n stack s implName impl p v err hl hcfg himpl hp hskip hval
  rw [show getRaw (fuel + 2) env n stack false s
      = rawF env (engine env (fuel + 1)) n stack false s from rfl]
  rw [rawF]
  simp only [hl, hcfg, Option.getD_some]
  simp only [himpl, hp]
  have hpv : (engine env (fuel + 1)).pval (stack ++ [n]) p
      (lookup (⟨implName, [(p.name, CVal.plain v)]⟩ : InstanceConfig).parameters p.name)
      false { s with instances := setKey s.instances n .initializing }
      = (.error (.validation err),
         { s with instances := setKey s.instances n .initializing }) := by
    show pvalF (engine env fuel) (stack ++ [n]) p _ false _ = _
    have hlk : lookup (⟨implName, [(p.name, CVal.plain v)]⟩ : InstanceConfig).parameters p.name
        = some (.plain v) := by
      show lookup [(p.name, CVal.plain v)] p.name = some (.plain v)
      simp [lookup]
    unfold pvalF
    simp only [hlk, CVal.plainVal?]
    rw [finishParamVal_not_skip p v hskip false]
    rw [if_neg Bool.false_ne_true, hval]
  simp only [paramsLoop]
  rw [hpv]
  simp only []
  rw [delKey_setKey_absent _ _ _ hl]

theorem claim7_witness :
    getRaw 2 envV "a" [] false freshSt
      = (.error (.invalidImplParam "a" "x" "int" (.str "bad")), freshSt) :=
  claim7_validation_reporting 0 envV "a" [] freshSt "a" implV xParam (.str "bad")
    ⟨.str "bad", "int"⟩ rfl rfl rfl rfl (fun _ h => Val.noConfusion h) rfl

/-- Claim C7 counterexample: the parameter `x` of instance `a` is
configured with the string `"bad"`, which its `int` validator rejects;
yet the dry-run pass (`ensureConstructible`) succeeds without applying
the validator, while the real `get` reports the
invalid-implementation-parameter error — so validation does not run in
every mode of the shared algorithm, contrary to the claim. -/
theorem claim7_counterexample :
    intValidator (.str "bad") = .error ⟨.str "bad", "int"⟩ ∧
    ensureConstructible 10 envV "a" freshSt = (.ok Val.none, freshSt) ∧
    containerGet 10 envV "a" Option.none freshSt
      = (.error (.invalidImplParam "a" "x" "int" (.str "bad")), freshSt) :=
  ⟨rfl, rfl, rfl⟩

/-- Claim C8 (amended): `getParams` resolves each declared parameter of
the callable with the callable's own declared default taking precedence:
a parameter with a default resolves to that default (validated), without
consulting the instance cache and without changing the container state;
only a parameter without a default is resolved by name lookup against
existing (or constructible) instances.  The callable is never registered
as an implementation (resolution reads the implementation table but the
table is immutable during it), and the resolved name-keyed map is
returned. -/
theorem claim8_get_params_precedence :
    (∀ fuel env (p : Parameter) dv w s,
        p.default = some (.plain dv) → (∀ u, dv ≠ .skip u) → p.validator dv = .ok w →
        getFactoryParamVals (fuel + 1) env [p] s = (.ok [(p.name, w)], s)) ∧
    (∀ fuel env (p : Parameter) v w s,
        p.default = Option.none → lookup s.instances p.name = some (.val v) →
        (∀ u, v ≠ .skip u) → p.validator v = .ok w →
        getFactoryParamVals (fuel + 2) env [p] s = (.ok [(p.name, w)], s)) := by
  constructor
  · intro fuel env p dv w s hd hskip hval
    have hp : getParamVal (fuel + 1) env [] p Option.none false s = (.ok w, s) := by
      show pvalF (engine env fuel) [] p Option.none false s = _
      unfold pvalF
      simp only [hd, CVal.plainVal?]
      rw [finishParamVal_not_skip p dv hskip false]
      rw [if_neg Bool.false_ne_true, hval]
    simp only [getFactoryParamVals]
    rw [hp]
  · intro fuel env p v w s hd hcache hskip hval
    have hp : getParamVal (fuel + 2) env [] p Option.none false s = (.ok w, s) := by
      show pvalF (engine env (fuel + 1)) [] p Option.none false s = _
      unfold pvalF
      simp only [hd]
      have hraw : (engine env (fuel + 1)).raw p.name [] false s = (.ok v, s) := by
        show rawF env (engine env fuel) p.name [] false s = _
        rw [rawF]
        simp only [hcache]
      rw [hraw]
      simp only []
      rw [finishParamVal_not_skip p v hskip false]
      rw [if_neg Bool.false_ne_true, hval]
    simp only [getFactoryParamVals]
    rw [hp]

theorem claim8_witness :
    getFactoryParamVals 1 envE [p8] st8 = (.ok [("p", .int 5)], st8) :=
  claim8_get_params_precedence.1 0 envE p8 (.int 5) (.int 5) st8 rfl
    (fun _ h => Val.noConfusion h) rfl

/-- Claim C8 counterexample: the cache holds instance `p = 7`, the
factory parameter `p` declares default `5`; `getParams` returns the
default `5`, not the instance value `7` — the declared default takes
precedence over name lookup, contrary to the claim's order. -/
theorem claim8_counterexample :
    lookup st8.instances "p" = some (.val (.int 7)) ∧
    getFactoryParamVals 5 envE [p8] st8 = (.ok [("p", .int 5)], st8) ∧
    Val.int 5 ≠ Val.int 7 := by
  refine ⟨rfl, rfl, ?_⟩
  intro h
  injection h with h
  exact absurd h (by decide)

theorem addLoop_ok_props (si : List (String × Impl)) :
    ∀ batch acc r, addLoop si batch acc = .ok r →
      (batch.map Impl.name).Nodup ∧
      ∀ i ∈ batch, lookup acc i.name = Option.none ∧ lookup si i.name = Option.none ∧
        probeImplFactory i = .ok () ∧ ∃ pi, prepareSyncImpl i = .ok pi := by
  intro batch
  induction batch with
  | nil =>
      intro acc r _
      exact ⟨List.nodup_nil, fun i hi => absurd hi (List.not_mem_nil i)⟩
  | cons i rest ih =>
      intro acc r h
      simp only [addLoop] at h
      split at h
      · simp at h
      next hcond =>
        have hacc : lookup acc i.name = Option.none := by
          rcases hx : lookup acc i.name with _ | x
          · rfl
          · rw [hx] at hcond; simp at hcond
        have hsi : lookup si i.name = Option.none := by
          rcases hx : lookup si i.name with _ | x
          · rfl
          · rw [hx] at hcond; simp at hcond
        split at h
        next e hprobe => simp at h
        next u hprobe =>
          split at h
          next e hprep => simp at h
          next pimpl hprep =>
            obtain ⟨hnodup, hrest⟩ := ih (acc ++ [(i.name, pimpl)]) r h
            cases u
            constructor
            · rw [List.map_cons, List.nodup_cons]
              refine ⟨?_, hnodup⟩
              intro hmem
              rw [List.mem_map] at hmem
              obtain ⟨j, hj, hjn⟩ := hmem
              have hja := (hrest j hj).1
              rw [lookup_append] at hja
              rcases hy : lookup acc j.name with _ | y
              · rw [hy] at hja
                simp only [] at hja
                simp only [lookup] at hja
                rw [if_pos hjn.symm] at hja
                cases hja
              · rw [hy] at hja; simp at hja
            · intro j hj
              rcases List.mem_cons.mp hj with hj1 | hj2
              · subst hj1
                exact ⟨hacc, hsi, hprobe, ⟨pimpl, hprep⟩⟩
              · obtain ⟨hja, hjs, hjp, hjq⟩ := hrest j hj2
                rw [lookup_append] at hja
                rcases hy : lookup acc j.name with _ | y
                · exact ⟨rfl, hjs, hjp, hjq⟩
                · rw [hy] at hja; simp at hja

/-- Claim C9: registration batches are atomic.  A batch that
`add_many` rejects (duplicate name against the registry or within the
batch, probe failure, or preparation failure) leaves the registry
exactly as it was; a batch it accepts necessarily had pairwise-distinct
names, all fresh against the registry, with every descriptor passing the
probe and preparing successfully. -/
theorem claim9_add_many_atomic :
    (∀ spec batch m s', addMany spec batch = (.error m, s') → s' = spec) ∧
    (∀ spec batch s', addMany spec batch = (.ok (), s') →
        (batch.map Impl.name).Nodup ∧
        ∀ i ∈ batch, lookup spec.impls i.name = Option.none ∧
          probeImplFactory i = .ok () ∧ ∃ pi, prepareSyncImpl i = .ok pi) := by
  constructor
  · intro spec batch m s' h
    unfold addMany at h
    rcases hal : addLoop spec.impls batch [] with e | prep
    · rw [hal] at h
      simp only [] at h
      simp only [Prod.mk.injEq] at h
      exact h.2.symm
    · rw [hal] at h; simp at h
  · intro spec batch s' h
    unfold addMany at h
    rcases hal : addLoop spec.impls batch [] with e | prep
    · rw [hal] at h; simp at h
    · have hp := addLoop_ok_props spec.impls batch [] prep hal
      exact ⟨hp.1, fun i hi =>
        ⟨(hp.2 i hi).2.1, (hp.2 i hi).2.2.1, (hp.2 i hi).2.2.2⟩⟩

theorem claim9_witness :
    ([iW9].map Impl.name).Nodup ∧
    ∀ i ∈ [iW9], lookup specE.impls i.name = Option.none ∧
      probeImplFactory i = .ok () ∧ ∃ pi, prepareSyncImpl i = .ok pi :=
  claim9_add_many_atomic.2 specE [iW9] (addMany specE [iW9]).2 rfl

/-- Claim C10: the fresh container's cache is pre-seeded with the
reserved name `container` bound to the container object itself, so
`get('container')` returns it immediately with no implementation lookup,
no acquisition, and no state change; and `inject` with any mapping
containing an already-present name (in particular `container`) fails
before adding any of the supplied values. -/
theorem claim10_reserved_container :
    lookup freshSt.instances "container" = some (.val .container) ∧
    (∀ fuel env stack dry s,
        lookup s.instances "container" = some (.val .container) →
        getRaw (fuel + 1) env "container" stack dry s = (.ok .container, s)) ∧
    (∀ s new, (∃ q ∈ new, (lookup s.instances q.1).isSome = true) →
        ∃ m, inject s new = (.error m, s)) := by
  refine ⟨rfl, ?_, ?_⟩
  · intro fuel env stack dry s h
    rw [show getRaw (fuel + 1) env "container" stack dry s
        = rawF env (engine env fuel) "container" stack dry s from rfl]
    rw [rawF]
    simp only [h]
  · intro s new hex
    have hfind : ∃ q, new.find? (fun p => (lookup s.instances p.1).isSome) = some q := by
      have h1 : (new.find? (fun p => (lookup s.instances p.1).isSome)).isSome := by
        rw [List.find?_isSome]
        obtain ⟨q, hq, hqs⟩ := hex
        exact ⟨q, hq, hqs⟩
      exact Option.isSome_iff_exists.mp h1
    obtain ⟨q, hq⟩ := hfind
    refine ⟨q.1, ?_⟩
    unfold inject
    rw [hq]

theorem claim10_witness :
    ∃ m, inject freshSt [("container", Val.int 0)] = (.error m, freshSt) :=
  claim10_reserved_container.2.2 freshSt [("container", Val.int 0)]
    ⟨("container", Val.int 0), by simp, rfl⟩

end Conject
